import Mathlib

/-!
Verification development for the publicodes compilation pipeline
(`parsePublicodes` and its helpers: the `[ref]` desugarer `transpileRef`,
the reference resolver callback `disambiguateReference`, the cycle-tolerant
`topologicalSort`, the nullability pass `inferRulesUnit`, and the
`composantes` mechanism expander `decompose`).

The JavaScript/TypeScript source is embedded shallowly:
 - raw YAML-decoded values become the inductive `Raw` (objects are ordered
   association lists, mirroring JS object key ordering);
 - JS object spread / computed-key insertion becomes `jsInsertF`
   (replace-in-place when the key exists, append otherwise);
 - the regex `/\x5bref( (.+))?\x5d$/` together with
   `String.prototype.replace`'s first-occurrence semantics is modelled
   character-exactly over `List Char`;
 - thrown exceptions become `Except`, JS `undefined` becomes `Option`;
 - external collaborators that are not part of the source under
   verification (`parse`, `traverseParsedRules`/`makeASTTransformer`,
   `disambiguateRuleReference`, `getReplacements`/`inlineReplacements`,
   the yaml decoder) are taken as parameters.
-/

set_option maxHeartbeats 1600000

namespace Publicodes

/-! Raw YAML-decoded values: JS objects, arrays, strings, numbers,
booleans and `null`.  Objects are ordered association lists (`RawFields`)
because JS objects preserve insertion order, which the desugarer's
rebuild via object spread depends on. -/
mutual
inductive Raw where
  | rstr (s : String)
  | rnum (n : Int)
  | rbool (b : Bool)
  | rnull
  | arr (xs : RawSeq)
  | obj (fs : RawFields)

inductive RawSeq where
  | nil
  | cons (hd : Raw) (tl : RawSeq)

inductive RawFields where
  | nil
  | cons (key : String) (val : Raw) (tl : RawFields)
end

/-- Keys of an object, in order. -/
def keysF : RawFields → List String
  | .nil => []
  | .cons k _ t => k :: keysF t

/-- First-match lookup in an object (JS property read; objects built by the
code have unique keys, so first-match is exact). -/
def lookupF : RawFields → String → Option Raw
  | .nil, _ => none
  | .cons k v t, key => if k = key then some v else lookupF t key

/-- Object concatenation (used to state lemmas about `jsInsertF`). -/
def appendF : RawFields → RawFields → RawFields
  | .nil, gs => gs
  | .cons k v t, gs => .cons k v (appendF t gs)

/-- Replace the value of every entry whose key is `key` (a JS assignment
on an existing property keeps the position of the key). -/
def replaceValF (key : String) (v : Raw) : RawFields → RawFields
  | .nil => .nil
  | .cons k w t =>
    if k = key then .cons k v (replaceValF key v t) else .cons k w (replaceValF key v t)

/-- JS `{ ...obj, [key]: value }`: when `key` is already present its value
is replaced in place (the key keeps its original position); otherwise the
entry is appended at the end. -/
def jsInsertF (fs : RawFields) (key : String) (v : Raw) : RawFields :=
  if (keysF fs).contains key then replaceValF key v fs
  else appendF fs (.cons key v .nil)

/-- JS object spread merge of two objects: entries of the second are
inserted into the first one by one, so a key present in both takes the
value from the second object while keeping the position it had in the
first. -/
def jsMergeF (a : RawFields) : RawFields → RawFields
  | .nil => a
  | .cons k v t => jsMergeF (jsInsertF a k v) t

/-- JS rest-destructuring `const { key, ...rest } = obj`: drop every entry
whose key is `key`. -/
def removeKeyF (fs : RawFields) (key : String) : RawFields :=
  match fs with
  | .nil => .nil
  | .cons k v t => if k = key then removeKeyF t key else .cons k v (removeKeyF t key)

/-! ### The regex `/\x5bref( (.+))?\x5d$/` and `String.replace`,
modelled character-exactly. -/

/-- The characters the JS regex `.` does not match (without the `s` and
`m` flags): newline, carriage return and the two Unicode line
separators. -/
def isJsLineTerminator (c : Char) : Bool :=
  c = '\n' || c = '\r' || c = '\u2028' || c = '\u2029'

/-- Attempt of the regex alternative with the optional group, against the
whole-string suffix `t`: succeeds iff `t` is `"[ref " ++ X ++ "]"` with
`X` nonempty and free of line terminators (JS `.` does not match those,
and the greedy `(.+)` backtracks until the final `"]"` sits at the very
end, which `$` requires).  Returns the capture `X`. -/
def refFormB (t : List Char) : Option (List Char) :=
  if "[ref ".toList.isPrefixOf t then
    let rest := t.drop 5
    if rest.getLast? = some ']' then
      let mid := rest.dropLast
      if mid ≠ [] ∧ mid.all (fun c => !isJsLineTerminator c) then some mid else none
    else none
  else none

/-- Match of the regex at one start position, i.e. against the suffix `t`
(the `$` anchor forces any match starting there to cover `t` entirely).
`some none` is a match without the optional group (`t = "[ref]"`),
`some (some X)` a match with capture `X`. The two shapes are mutually
exclusive (`t.get 4` is `']'` in one and `' '` in the other). -/
def tryRefSuffix (t : List Char) : Option (Option (List Char)) :=
  if t = "[ref]".toList then some none
  else
    match refFormB t with
    | some mid => some (some mid)
    | none => none

/-- `regex.exec(key)`: scan start positions left to right, return the
matched text (`match[0]`, the suffix from the leftmost viable position)
and the optional capture (`match[2]`). -/
def findRefMatch : List Char → Option (List Char × Option (List Char))
  | [] => none
  | c :: rest =>
    match tryRefSuffix (c :: rest) with
    | some g => some (c :: rest, g)
    | none => findRefMatch rest

/-- `key.replace(pat, '')` for a *string* pattern: JS removes only the
first occurrence of `pat`. -/
def replaceFirst : List Char → List Char → List Char
  | [], _ => []
  | c :: rest, pat =>
    if pat.isPrefixOf (c :: rest) then (c :: rest).drop pat.length
    else c :: replaceFirst rest pat

/-- `String.prototype.trim` (ASCII whitespace; the exotic Unicode spaces
JS also trims do not occur in the properties at issue). -/
def trimChars (cs : List Char) : List Char :=
  ((cs.dropWhile Char.isWhitespace).reverse.dropWhile Char.isWhitespace).reverse

/-- `trim` on `String`s. -/
def trimS (s : String) : String :=
  (trimChars s.toList).asString

/-! ### The desugarer `transpileRef` -/

/-! The desugarer, transcribed from `transpileRef` in the source:
arrays are mapped element-wise, non-objects pass through (note `!object`
catches `null` before the `typeof` test), and objects are rebuilt by a
left fold starting from `{}` in which a key matching the `[ref]` pattern
is rewritten to `argumentType: { nom: argumentName, valeur: … }`. -/
mutual
def transpileRef : Raw → Raw
  | .arr xs => .arr (transpileRefSeq xs)
  | .obj fs => .obj (transpileRefFold RawFields.nil fs)
  | x => x

def transpileRefSeq : RawSeq → RawSeq
  | .nil => .nil
  | .cons h t => .cons (transpileRef h) (transpileRefSeq t)

def transpileRefFold : RawFields → RawFields → RawFields
  | acc, .nil => acc
  | acc, .cons k v t =>
    match findRefMatch k.toList with
    | none => transpileRefFold (jsInsertF acc k (transpileRef v)) t
    | some (m0, g2) =>
      let argumentType := trimS (replaceFirst k.toList m0).asString
      let argumentName :=
        match g2 with
        | some x => if trimS x.asString = "" then argumentType else trimS x.asString
        | none => argumentType
      transpileRefFold
        (jsInsertF acc argumentType
          (.obj (.cons "nom" (.rstr argumentName) (.cons "valeur" (transpileRef v) .nil))))
        t
end

/-! Auxiliary predicates on raw values, used to state when the desugarer
is the identity: `hasRefKey` says some object key at some depth matches
the `[ref]` pattern, `wfKeys` says every object has pairwise distinct keys
(always the case for values decoded from YAML/JS objects). -/

/-- Pairwise-distinct keys of one object node. -/
def nodupF : RawFields → Bool
  | .nil => true
  | .cons k _ t => !((keysF t).contains k) && nodupF t

mutual
def hasRefKey : Raw → Bool
  | .arr xs => hasRefKeySeq xs
  | .obj fs => hasRefKeyFields fs
  | _ => false

def hasRefKeySeq : RawSeq → Bool
  | .nil => false
  | .cons h t => hasRefKey h || hasRefKeySeq t

def hasRefKeyFields : RawFields → Bool
  | .nil => false
  | .cons k v t => (findRefMatch k.toList).isSome || hasRefKey v || hasRefKeyFields t
end

mutual
def wfKeys : Raw → Bool
  | .arr xs => wfKeysSeq xs
  | .obj fs => nodupF fs && wfKeysFields fs
  | _ => true

def wfKeysSeq : RawSeq → Bool
  | .nil => true
  | .cons h t => wfKeys h && wfKeysSeq t

def wfKeysFields : RawFields → Bool
  | .nil => true
  | .cons _ v t => wfKeys v && wfKeysFields t
end

/-- Top-level keys of an object value (a projection used to tell two
desugarer outputs apart without a full equality test). -/
def topKeys : Raw → List String
  | .obj fs => keysF fs
  | _ => []

/-! ### Errors, the AST and the compile context -/

/-- Failures of the pipeline: `SynError` is the `SyntaxError` thrown for a
malformed rule body, `TypeErrorUndefined` models the JS `TypeError` raised
by reading a property of `undefined`, `CollabError` stands for an error
raised inside a delegated collaborator. -/
inductive PubError where
  | SynError (msg : String)
  | TypeErrorUndefined
  | CollabError (msg : String)
deriving DecidableEq, Repr

/-- Literal values carried by `constant` nodes (`nodeValue`). -/
inductive NodeValue where
  | vnull
  | vnum (n : Int)
  | vstr (s : String)
  | vbool (b : Bool)
deriving DecidableEq, Repr

/-! The AST node kinds, one constructor per `nodeKind` tag dispatched on
by `inferNodeUnit` and `disambiguateReference`.  For kinds whose
mechanism-specific payload is never consulted by the code under
verification, the payload is modelled as a plain child list; for the
pass-through kinds only the child that the inference reads
(`explanation.assiette`, `explanation.valeur`, `explanation`) is kept.
A `rule` node carries its dotted name, its `title`, the `acronyme` of its
raw source and its root expression (`explanation.valeur`); a `reference`
node carries the literal name, the enclosing dotted name
(`contextDottedName`), the resolved dotted name when already resolved,
the `thisReferenceIsNotARealDependencyHack` flag and the denormalized
`title`/`acronym` fields filled in at resolution time. -/
mutual
inductive ASTNode where
  | somme (children : ASTList)
  | produit (children : ASTList)
  | bareme (children : ASTList)
  | duree (children : ASTList)
  | grille (children : ASTList)
  | tauxProgressif (children : ASTList)
  | maximum (children : ASTList)
  | minimum (children : ASTList)
  | applicableSi (children : ASTList)
  | nonApplicableSi (children : ASTList)
  | constant (nodeValue : NodeValue)
  | inversion (children : ASTList)
  | operation (children : ASTList)
  | parDefaut (children : ASTList)
  | recalcul (children : ASTList)
  | replacementRule (children : ASTList)
  | toutesCesConditions (children : ASTList)
  | uneDeCesConditions (children : ASTList)
  | unePossibilite (children : ASTList)
  | resoudreReferenceCirculaire (children : ASTList)
  | synchronisation (children : ASTList)
  | abattement (assiette : ASTNode)
  | arrondi (valeur : ASTNode)
  | nomDansLaSituation (valeur : ASTNode)
  | plafond (valeur : ASTNode)
  | plancher (valeur : ASTNode)
  | unite (explanation : ASTNode)
  | variations (lines : VarLines)
  | rule (dottedName : String) (title : Option String) (acronyme : Option String)
      (valeur : ASTNode)
  | reference (contextDottedName : String) (name : String) (dottedName : Option String)
      (notARealDependencyHack : Bool) (title : Option String) (acronym : Option String)

inductive ASTList where
  | nil
  | cons (hd : ASTNode) (tl : ASTList)

inductive VarLines where
  | nil
  | cons (condition : ASTNode) (consequence : ASTNode) (tl : VarLines)
end

/-- The inferred unit; currently only nullability. -/
structure InferedUnit where
  isNullable : Bool
deriving DecidableEq, Repr

/-- The memoized fact table `res`: a JS record whose values may themselves
be `undefined` (hence `Option InferedUnit` values). -/
def Facts := List (String × Option InferedUnit)

/-- Property read `res[key]`: an absent key and a key holding `undefined`
both read as `undefined`. -/
def lookupFact : Facts → String → Option InferedUnit
  | [], _ => none
  | (k, u) :: t, key => if k = key then u else lookupFact t key

/-- Property write `res[key] = u` (replaces in place or appends). -/
def upsertFact : Facts → String → Option InferedUnit → Facts
  | [], key, u => [(key, u)]
  | (k, w) :: t, key, u =>
    if k = key then (key, u) :: t else (k, w) :: upsertFact t key u

/-- The parsed-rule map `parsedRules` (dotted name to `rule` node). -/
def lookupRule : List (String × ASTNode) → String → Option ASTNode
  | [], _ => none
  | (k, n) :: t, key => if k = key then some n else lookupRule t key

/-! ### Nullability inference (`inferRulesUnit` / `inferNodeUnit`) -/

/-! Transcription of the `switch` in `inferNodeUnit`.  The shared mutable
record `res` is threaded explicitly (only the `rule` arm writes to it);
a JS value that may be `undefined` is an `Option`; the `TypeError` thrown
by `undefined.isNullable` inside the `variations` arm is an `Except`
error.  `Array.prototype.some` short-circuits, so a later `undefined`
consequence is not dereferenced once a nullable branch has been found. -/
mutual
def inferNodeUnit (facts : Facts) :
    ASTNode → Except PubError (Option InferedUnit × Facts)
  | .somme _ => .ok (some ⟨false⟩, facts)
  | .produit _ => .ok (some ⟨false⟩, facts)
  | .bareme _ => .ok (some ⟨false⟩, facts)
  | .duree _ => .ok (some ⟨false⟩, facts)
  | .grille _ => .ok (some ⟨false⟩, facts)
  | .tauxProgressif _ => .ok (some ⟨false⟩, facts)
  | .maximum _ => .ok (some ⟨false⟩, facts)
  | .minimum _ => .ok (some ⟨false⟩, facts)
  | .applicableSi _ => .ok (some ⟨true⟩, facts)
  | .nonApplicableSi _ => .ok (some ⟨true⟩, facts)
  | .constant v => .ok (some ⟨match v with | .vnull => true | _ => false⟩, facts)
  | .inversion _ => .ok (some ⟨false⟩, facts)
  | .operation _ => .ok (some ⟨false⟩, facts)
  | .parDefaut _ => .ok (some ⟨false⟩, facts)
  | .recalcul _ => .ok (some ⟨false⟩, facts)
  | .replacementRule _ => .ok (some ⟨false⟩, facts)
  | .toutesCesConditions _ => .ok (some ⟨false⟩, facts)
  | .uneDeCesConditions _ => .ok (some ⟨false⟩, facts)
  | .unePossibilite _ => .ok (some ⟨false⟩, facts)
  | .resoudreReferenceCirculaire _ => .ok (some ⟨false⟩, facts)
  | .synchronisation _ => .ok (some ⟨false⟩, facts)
  | .abattement assiette => inferNodeUnit facts assiette
  | .arrondi valeur => inferNodeUnit facts valeur
  | .nomDansLaSituation valeur => inferNodeUnit facts valeur
  | .plafond valeur => inferNodeUnit facts valeur
  | .plancher valeur => inferNodeUnit facts valeur
  | .unite explanation => inferNodeUnit facts explanation
  | .variations lines => do
    let (b, facts') ← inferVariations facts lines
    .ok (some ⟨b⟩, facts')
  | .rule dottedName _ _ valeur => do
    let (u, facts') ← inferNodeUnit facts valeur
    let facts'' := upsertFact facts' dottedName u
    .ok (lookupFact facts'' dottedName, facts'')
  | .reference _ _ dottedName _ _ _ =>
    match dottedName with
    | some d => .ok (lookupFact facts d, facts)
    | none => .ok (none, facts)

def inferVariations (facts : Facts) : VarLines → Except PubError (Bool × Facts)
  | .nil => .ok (false, facts)
  | .cons _ consequence tl => do
    let (u, facts') ← inferNodeUnit facts consequence
    match u with
    | none => .error .TypeErrorUndefined
    | some iu => if iu.isNullable then .ok (true, facts') else inferVariations facts' tl
end

/-- The `forEach` over the topological order.  Looking up a name that is
missing from `parsedRules` would dispatch on `undefined.nodeKind`, a
thrown `TypeError`. -/
def inferRulesGo (parsedRules : List (String × ASTNode)) :
    List String → Facts → Except PubError Facts
  | [], facts => .ok facts
  | name :: rest, facts =>
    match lookupRule parsedRules name with
    | none => .error .TypeErrorUndefined
    | some node => do
      let (_, facts') ← inferNodeUnit facts node
      inferRulesGo parsedRules rest facts'

/-- `inferRulesUnit(parsedRules, topologicalOrder)`: runs the memoized
pass over every rule in order and returns the fact table `res`. -/
def inferRulesUnit (parsedRules : List (String × ASTNode))
    (topologicalOrder : List String) : Except PubError Facts :=
  inferRulesGo parsedRules topologicalOrder []

/-! ### Reference resolution (`disambiguateReference`) -/

/-- The dependency graph: dotted name of a rule to the ordered list of
dotted names it references. -/
def DepGraph := List (String × List String)

/-- Record lookup `dependencyGraph[name] ?? []`. -/
def lookupGraph (g : List (String × List String)) (n : String) : List String :=
  match g.find? (fun p => p.1 == n) with
  | some p => p.2
  | none => []

/-- Record assignment on the dependency graph. -/
def upsertDep : List (String × List String) → String → List String →
    List (String × List String)
  | [], key, v => [(key, v)]
  | (k, w) :: t, key, v =>
    if k = key then (key, v) :: t else (k, w) :: upsertDep t key v

/-- `dependencies[ctx] = [...(dependencies[ctx] ?? []), dottedName]`:
append one directed edge, keeping duplicates. -/
def recordDep (deps : List (String × List String)) (ctx target : String) :
    List (String × List String) :=
  upsertDep deps ctx (lookupGraph deps ctx ++ [target])

/-- `.title` of a rule node. -/
def titleOfRule : ASTNode → Option String
  | .rule _ t _ _ => t
  | _ => none

/-- `.rawNode.acronyme` of a rule node. -/
def acronymeOfRule : ASTNode → Option String
  | .rule _ _ a _ => a
  | _ => none

/-- The per-node callback of `disambiguateReference(parsedRules,
dependencies)`; the surrounding `makeASTTransformer`/`traverseParsedRules`
machinery is an external collaborator, as is the actual search
`disambiguateRuleReference` (parameter `resolve`, which fails on an
unresolved or ambiguous reference).  On a `reference` node it resolves
the name, records a dependency edge unless the node carries the
`thisReferenceIsNotARealDependencyHack` flag, and returns the node
rebuilt with the resolved dotted name and the denormalized title and
acronym of the target; on every other node it returns `undefined`
(`none`), leaving the node untouched. -/
def disambiguateReference
    (resolve : List (String × ASTNode) → String → String → Except PubError String)
    (parsedRules : List (String × ASTNode)) (deps : List (String × List String))
    (node : ASTNode) :
    Except PubError (List (String × List String) × Option ASTNode) :=
  match node with
  | .reference ctxName name _ hack _ _ => do
    let dottedName ← resolve parsedRules ctxName name
    let deps' := if hack then deps else recordDep deps ctxName dottedName
    .ok (deps', some (.reference ctxName name (some dottedName) hack
      ((lookupRule parsedRules dottedName).bind titleOfRule)
      ((lookupRule parsedRules dottedName).bind acronymeOfRule)))
  | _ => .ok (deps, none)

/-- Discriminates `reference` nodes (the only kind the resolution
callback transforms). -/
def isReferenceNode : ASTNode → Bool
  | .reference _ _ _ _ _ _ => true
  | _ => false

/-- Discriminates the two applicability-gate kinds. -/
def isGateKind : ASTNode → Bool
  | .applicableSi _ => true
  | .nonApplicableSi _ => true
  | _ => false

/-- Discriminates the aggregation/arithmetic kinds (sum, product,
rate-scale, duration, grid, progressive-rate, max, min). -/
def isAggregationKind : ASTNode → Bool
  | .somme _ => true
  | .produit _ => true
  | .bareme _ => true
  | .duree _ => true
  | .grille _ => true
  | .tauxProgressif _ => true
  | .maximum _ => true
  | .minimum _ => true
  | _ => false

/-! ### Cycle-tolerant topological sort -/

/-- The inner `for (const dependency of nodeDependencies)` loop of
`topologicalSortHelper`, parameterized by the recursive visit: a
dependency already marked in progress (`temp`) is a back-edge and is
skipped, one already in the result is skipped, any other is visited. -/
def topologicalSortDeps
    (visit : String → List String → List String → Option (List String)) :
    List String → List String → List String → Option (List String)
  | [], _, result => some result
  | d :: ds, temp, result =>
    if d ∈ temp then topologicalSortDeps visit ds temp result
    else if d ∈ result then topologicalSortDeps visit ds temp result
    else
      match visit d temp result with
      | none => none
      | some res => topologicalSortDeps visit ds temp res

/-- `topologicalSortHelper(ruleName)`: mark the name in progress, process
its dependencies, unmark, append the name.  The JS original recurses
without bound; the embedding carries fuel (`none` = the recursion would
not have returned), and `topologicalSort_spec` shows that with the fuel
chosen below the fuel is never exhausted. -/
def topologicalSortHelper (g : List (String × List String)) :
    Nat → String → List String → List String → Option (List String)
  | 0, _, _, _ => none
  | f + 1, name, temp, result =>
    match topologicalSortDeps (topologicalSortHelper g f) (lookupGraph g name)
        (name :: temp) result with
    | none => none
    | some res => some (res ++ [name])

/-- The outer `for (const ruleName of rulesNames)` loop. -/
def topologicalSortGo (g : List (String × List String)) (fuel : Nat) :
    List String → List String → Option (List String)
  | [], result => some result
  | n :: ns, result =>
    if n ∈ result then topologicalSortGo g fuel ns result
    else
      match topologicalSortHelper g fuel n [] result with
      | none => none
      | some r => topologicalSortGo g fuel ns r

/-- All names appearing in the value lists of the graph. -/
def graphValues (g : List (String × List String)) : List String :=
  (g.map Prod.snd).flatten

/-- `topologicalSort(rulesNames, dependencyGraph)`.  The fuel bounds the
depth of nested `topologicalSortHelper` calls; since the names marked in
progress are pairwise distinct and all drawn from
`rulesNames ++ graphValues g`, this fuel is never exhausted. -/
def topologicalSort (rulesNames : List String) (g : List (String × List String)) :
    Option (List String) :=
  topologicalSortGo g ((rulesNames ++ graphValues g).length + 1) rulesNames []

/-- The part of `result` appended before the (first occurrence of) `x`. -/
def beforeFirst (r : List String) (x : String) : List String :=
  r.takeWhile (· ≠ x)

/-- Reachability along dependency edges: `Reach g a b` when there is a
(possibly empty) chain of graph edges from `a` to `b`. -/
inductive Reach (g : List (String × List String)) : String → String → Prop where
  | refl (a : String) : Reach g a a
  | tail {a b c : String} : Reach g a b → c ∈ lookupGraph g b → Reach g a c

/-- The ordering invariant of the sort: every dependency `d` of an
already-appended name `x` has either been appended before `x`, or was a
back-edge at the time (`x` is reachable from `d` and `d` is either
appended or still marked in progress). -/
def OrderInvT (g : List (String × List String)) (r temp : List String) : Prop :=
  ∀ x ∈ r, ∀ d ∈ lookupGraph g x,
    d ∈ beforeFirst r x ∨ (Reach g d x ∧ (d ∈ r ∨ d ∈ temp))

/-! ### The `composantes` mechanism expander (`decompose`) -/

/-- A parsed mechanism node as returned by the external `parse`
collaborator: some payload plus the `sourcemapInfo.mecanismName`
diagnostic tag that `decompose` overwrites. -/
structure MechNode (α : Type) where
  val : α
  sourcemapMecanismName : Option String
deriving DecidableEq, Repr

/-- Number of elements of a raw sequence. -/
def seqLength : RawSeq → Nat
  | .nil => 0
  | .cons _ t => seqLength t + 1

/-- Indexing into a raw sequence. -/
def seqGet : RawSeq → Nat → Option Raw
  | .nil, _ => none
  | .cons h _, 0 => some h
  | .cons _ t, n + 1 => seqGet t n

/-- JS rest-destructuring and spreads of one `composante`:
`const { attributs, ...otherKeys } = composante` followed by
`{ ...attributs, valeur: { [k]: { ...factoredKeys, ...otherKeys } } }`.
Spreading a missing/`null`/scalar `attributs` contributes no entries. -/
def summandOf (k : String) (factoredKeys : RawFields) (cf : RawFields) : Raw :=
  let attributs := lookupF cf "attributs"
  let otherKeys := removeKeyF cf "attributs"
  let attrFields :=
    match attributs with
    | some (.obj af) => af
    | _ => .nil
  Raw.obj (jsInsertF attrFields "valeur"
    (.obj (.cons k (.obj (jsMergeF factoredKeys otherKeys)) .nil)))

/-- `composantes.map(...)`: one summand per component.  Non-object list
elements are outside the modelled domain (in JS, rest-destructuring of
`null` throws and of a string produces index keys) and yield `none`. -/
def decomposeSummands (k : String) (factoredKeys : RawFields) :
    RawSeq → Option RawSeq
  | .nil => some .nil
  | .cons c tl =>
    match c with
    | .obj cf =>
      (decomposeSummands k factoredKeys tl).map
        (RawSeq.cons (summandOf k factoredKeys cf))
    | _ => none

/-- Every element of the sequence is an object. -/
def allObjects : RawSeq → Bool
  | .nil => true
  | .cons (.obj _) t => allObjects t
  | .cons _ _ => false

/-- The raw `{ somme: [...] }` object that `decompose` hands to `parse`:
`const { composantes, ...factoredKeys } = v` and one summand per
component.  A missing or non-array `composantes` would make
`composantes.map` throw (`none`). -/
def decomposeRaw (k : String) (v : RawFields) : Option Raw :=
  match lookupF v "composantes" with
  | some (.arr comps) =>
    let factoredKeys := removeKeyF v "composantes"
    (decomposeSummands k factoredKeys comps).map
      (fun s => Raw.obj (.cons "somme" (.arr s) .nil))
  | _ => none

/-- `decompose(k, v, context)`: parse the expanded sum (via the external
`parse` collaborator, parameter `parseFn`) and tag the result with
`sourcemapInfo: { mecanismName: composantes }`. -/
def decompose {α γ : Type} (parseFn : Raw → γ → MechNode α) (k : String)
    (v : RawFields) (context : γ) : Option (MechNode α) :=
  (decomposeRaw k v).map
    (fun raw => { parseFn raw context with sourcemapMecanismName := some "composantes" })

/-! ### The pipeline `parsePublicodes` -/

/-- The diagnostics sink; only its identity matters to the pipeline,
which passes it unchanged to the replacement collaborator. -/
structure Logger where
  tag : String
deriving DecidableEq, Repr

/-- The default sink (`console`). -/
def consoleLogger : Logger := ⟨"console"⟩

/-- The compile context shared with the `parse` collaborator. -/
structure Ctx where
  dottedName : String
  parsedRules : List (String × ASTNode)
  getUnitKey : String → String
  logger : Logger

/-- The optional caller-supplied part of the context. -/
structure PartialCtx where
  dottedName : Option String
  parsedRules : Option (List (String × ASTNode))
  getUnitKey : Option (String → String)
  logger : Option Logger

/-- The default argument `\x7b\x7d` of `parsePublicodes`. -/
def emptyPartialCtx : PartialCtx := ⟨none, none, none, none⟩

/-- The external collaborators consumed by the pipeline: the per-rule AST
constructor `parse` (which registers rule nodes into the context),
the `makeASTTransformer`/`traverseParsedRules` traversal driving the
resolution callback with its threaded dependency graph, the bundled
replacement pass (`getReplacements` + `inlineReplacements` +
`traverseParsedRules`), and the reference search
`disambiguateRuleReference`. -/
structure Collaborators where
  parseFn : Raw → Ctx → Except PubError Ctx
  traverseResolve :
    (List (String × List String) → ASTNode →
      Except PubError (List (String × List String) × Option ASTNode)) →
    List (String × List String) → List (String × ASTNode) →
    Except PubError (List (String × List String) × List (String × ASTNode))
  replacePass : List (String × ASTNode) → Logger →
    Except PubError (List (String × ASTNode))
  resolveRef : List (String × ASTNode) → String → String → Except PubError String

/-- JS `typeof` on raw values (`typeof null` and `typeof []` are both
the string `object`). -/
def jsTypeof : Raw → String
  | .rstr _ => "string"
  | .rnum _ => "number"
  | .rbool _ => "boolean"
  | .rnull => "object"
  | .arr _ => "object"
  | .obj _ => "object"

/-- String/number shorthand normalization: a scalar body becomes
`\x7b formule: stringified value \x7d`. -/
def normalizeBody : Raw → Raw
  | .rstr s => .obj (.cons "formule" (.rstr s) .nil)
  | .rnum n => .obj (.cons "formule" (.rstr (toString n)) .nil)
  | b => b

/-- The malformed-body check of STEP 3: after normalization, a body whose
`typeof` is not `object` aborts the compile with a `SyntaxError` naming
the rule. -/
def bodyCheck (dottedName : String) (body : Raw) : Except PubError Raw :=
  let b := normalizeBody body
  if jsTypeof b ≠ "object" then
    .error (.SynError
      ("Rule " ++ dottedName ++ " is incorrectly written. Please give it a proper value."))
  else .ok b

/-- Array entries spread into an object become decimal index keys. -/
def indexFields (i : Nat) : RawSeq → RawFields
  | .nil => .nil
  | .cons h t => .cons (toString i) h (indexFields (i + 1) t)

/-- The own enumerable entries contributed by spreading a value into an
object literal. -/
def toSpreadFields : Raw → RawFields
  | .obj fs => fs
  | .arr xs => indexFields 0 xs
  | _ => .nil

/-- `\x7b nom: dottedName, ...rule \x7d`: the argument handed to the
`parse` collaborator. -/
def withNom (name : String) (body : Raw) : Raw :=
  .obj (jsMergeF (.cons "nom" (.rstr name) .nil) (toSpreadFields body))

/-- The `Object.entries(rules).forEach` loop of STEP 3. -/
def parseRulesLoop (collab : Collaborators) : RawFields → Ctx → Except PubError Ctx
  | .nil, ctx => .ok ctx
  | .cons dottedName body tl, ctx => do
    let b ← bodyCheck dottedName body
    let ctx' ← collab.parseFn (withNom dottedName b) ctx
    parseRulesLoop collab tl ctx'

/-- `parsePublicodes(rawRules, partialContext)` for a pre-decoded mapping
(the serialized-text branch goes through the external yaml decoder and is
out of scope).  The shallow copy of STEP 1 is the identity on values.
The inferred units of STEP 6 are computed, and their errors propagate,
but the table itself is discarded: the parsed-rule map of STEP 5 is
returned. -/
def parsePublicodes (collab : Collaborators) (rawRules : RawFields)
    (pctx : PartialCtx) : Except PubError (List (String × ASTNode)) := do
  let rules := rawRules
  let rules := transpileRefFold RawFields.nil rules
  let context : Ctx :=
    { dottedName := pctx.dottedName.getD ""
      parsedRules := pctx.parsedRules.getD []
      getUnitKey := pctx.getUnitKey.getD id
      logger := pctx.logger.getD consoleLogger }
  let context ← parseRulesLoop collab rules context
  let parsedRules := context.parsedRules
  let (dependencies, parsedRules) ← collab.traverseResolve
    (disambiguateReference collab.resolveRef parsedRules) [] parsedRules
  let topologicalOrder := (topologicalSort (parsedRules.map Prod.fst) dependencies).getD []
  let parsedRules ← collab.replacePass parsedRules context.logger
  let _ ← inferRulesUnit parsedRules topologicalOrder
  .ok parsedRules

/-- Collaborators that always succeed and change nothing: used to witness
which outcomes are produced by the pipeline itself rather than by a
delegated pass. -/
def benignCollab : Collaborators where
  parseFn := fun _ ctx => .ok ctx
  traverseResolve := fun _ deps rules => .ok (deps, rules)
  replacePass := fun rules _ => .ok rules
  resolveRef := fun _ _ name => .ok name

/-! ## Theorems -/

theorem lookupGraph_upsertDep_self (g : List (String × List String)) (k : String)
    (v : List String) : lookupGraph (upsertDep g k v) k = v := by
  induction g with
  | nil => simp [upsertDep, lookupGraph]
  | cons p t ih =>
    obtain ⟨k0, w0⟩ := p
    by_cases h : k0 = k
    · subst h
      simp [upsertDep, lookupGraph]
    · have hb : (k0 == k) = false := by simp [h]
      simp only [upsertDep, if_neg h]
      simpa [lookupGraph, List.find?, hb] using ih

theorem lookupGraph_upsertDep_other (g : List (String × List String)) (k : String)
    (v : List String) (n : String) (hn : n ≠ k) :
    lookupGraph (upsertDep g k v) n = lookupGraph g n := by
  have hb : (k == n) = false := by simp [Ne.symm hn]
  induction g with
  | nil => simp [upsertDep, lookupGraph, List.find?, hb]
  | cons p t ih =>
    obtain ⟨k0, w0⟩ := p
    by_cases h : k0 = k
    · subst h
      simp [upsertDep, lookupGraph, List.find?, hb]
    · simp only [upsertDep, if_neg h]
      by_cases h0 : k0 = n
      · subst h0
        simp [lookupGraph, List.find?]
      · have hb0 : (k0 == n) = false := by simp [h0]
        simpa [lookupGraph, List.find?, hb0] using ih

theorem lookupGraph_recordDep_self (deps : List (String × List String))
    (ctx target : String) :
    lookupGraph (recordDep deps ctx target) ctx = lookupGraph deps ctx ++ [target] :=
  lookupGraph_upsertDep_self ..

theorem lookupGraph_recordDep_other (deps : List (String × List String))
    (ctx target other : String) (h : other ≠ ctx) :
    lookupGraph (recordDep deps ctx target) other = lookupGraph deps other :=
  lookupGraph_upsertDep_other _ _ _ _ h

/-- C7: during reference resolution, a `reference` node that is not
flagged as `thisReferenceIsNotARealDependencyHack` appends one directed
edge from the enclosing rule to the resolved target at the end of that
rule's edge list (leaving every other list unchanged), while a flagged
node leaves the graph untouched; repeated resolution of the same pair
appends a duplicate edge (no deduplication), and non-`reference` nodes
contribute nothing. -/
theorem disambiguateReference_dependency_edges
    (resolve : List (String × ASTNode) → String → String → Except PubError String)
    (rules : List (String × ASTNode)) (deps : List (String × List String))
    (ctxName name target : String) (dn : Option String) (t a : Option String)
    (hres : resolve rules ctxName name = .ok target) :
    (disambiguateReference resolve rules deps (.reference ctxName name dn false t a)
      = .ok (recordDep deps ctxName target,
          some (.reference ctxName name (some target) false
            ((lookupRule rules target).bind titleOfRule)
            ((lookupRule rules target).bind acronymeOfRule))))
    ∧ lookupGraph (recordDep deps ctxName target) ctxName
        = lookupGraph deps ctxName ++ [target]
    ∧ (∀ other, other ≠ ctxName →
        lookupGraph (recordDep deps ctxName target) other = lookupGraph deps other)
    ∧ lookupGraph (recordDep (recordDep deps ctxName target) ctxName target) ctxName
        = lookupGraph deps ctxName ++ [target, target]
    ∧ (disambiguateReference resolve rules deps (.reference ctxName name dn true t a)
      = .ok (deps,
          some (.reference ctxName name (some target) true
            ((lookupRule rules target).bind titleOfRule)
            ((lookupRule rules target).bind acronymeOfRule))))
    ∧ (∀ node, isReferenceNode node = false →
        disambiguateReference resolve rules deps node = .ok (deps, none)) := by
  refine ⟨?_, lookupGraph_recordDep_self .., ?_, ?_, ?_, ?_⟩
  · simp only [disambiguateReference, hres]
    rfl
  · intro other h
    exact lookupGraph_recordDep_other _ _ _ _ h
  · rw [lookupGraph_recordDep_self, lookupGraph_recordDep_self, List.append_assoc]
    rfl
  · simp only [disambiguateReference, hres]
    rfl
  · intro node hnode
    cases node <;> simp_all [isReferenceNode, disambiguateReference]

theorem disambiguateReference_dependency_edges_witness :
    disambiguateReference benignCollab.resolveRef [] [] (.reference "A" "B" none false none none)
      = .ok ([("A", ["B"])], some (.reference "A" "B" (some "B") false none none))
    ∧ lookupGraph (recordDep [] "A" "B") "A" = ["B"] := by
  obtain ⟨h1, h2, -, -, -, -⟩ :=
    disambiguateReference_dependency_edges benignCollab.resolveRef [] [] "A" "B" "B"
      none none none rfl
  refine ⟨?_, ?_⟩
  · simpa [recordDep, upsertDep, lookupGraph, lookupRule, titleOfRule, acronymeOfRule] using h1
  · simpa using h2

/-- C8: `parsePublicodes` is a pure function of its input and context
options: two calls on the same pre-decoded mapping with two separately
constructed partial contexts holding the same options — in particular two
fresh default contexts, whose missing fields are both filled with the
defaults of STEP 3 — return structurally equal rule maps. -/
theorem parsePublicodes_deterministic (collab : Collaborators) (rawRules : RawFields)
    (p1 p2 : PartialCtx)
    (h1 : p1.dottedName = p2.dottedName) (h2 : p1.parsedRules = p2.parsedRules)
    (h3 : p1.getUnitKey = p2.getUnitKey) (h4 : p1.logger = p2.logger) :
    parsePublicodes collab rawRules p1 = parsePublicodes collab rawRules p2 := by
  obtain ⟨d1, r1, u1, l1⟩ := p1
  obtain ⟨d2, r2, u2, l2⟩ := p2
  cases h1
  cases h2
  cases h3
  cases h4
  rfl

theorem parsePublicodes_deterministic_witness :
    parsePublicodes benignCollab (.cons "r" .rnull .nil) emptyPartialCtx
      = parsePublicodes benignCollab (.cons "r" .rnull .nil) emptyPartialCtx :=
  parsePublicodes_deterministic benignCollab (.cons "r" .rnull .nil)
    emptyPartialCtx emptyPartialCtx rfl rfl rfl rfl

/-- C5 counterexample: a rule whose body is a raw list does *not* fail
the malformed-body check — `typeof` of an array is the string `object`,
so the list is handed to the `parse` collaborator and (with collaborators
that succeed) the compile returns a result instead of the claimed
`SyntaxError`. -/
theorem parsePublicodes_list_body_no_error :
    parsePublicodes benignCollab (.cons "r" (.arr .nil) .nil) emptyPartialCtx
      = .ok [] := rfl

/-- C5 (amended): a rule body that is neither a string, a number, `null`,
an object nor an array after normalization — i.e. a boolean — makes the
compile fail fast, before any collaborator runs, with a `SyntaxError`
whose message contains the rule name, and no rule map is returned (`null`
and raw lists pass the `typeof`-object test and are delegated to the
`parse` collaborator instead). -/
theorem parsePublicodes_bool_body_syntax_error (collab : Collaborators)
    (pctx : PartialCtx) (name : String) (b : Bool)
    (hname : findRefMatch name.toList = none) :
    parsePublicodes collab (.cons name (.rbool b) .nil) pctx
      = .error (.SynError
          ("Rule " ++ name ++ " is incorrectly written. Please give it a proper value."))
    ∧ ∃ pre post,
        ("Rule " ++ name ++ " is incorrectly written. Please give it a proper value.")
          = pre ++ name ++ post := by
  refine ⟨?_, "Rule ", " is incorrectly written. Please give it a proper value.", rfl⟩
  simp only [parsePublicodes, transpileRefFold, hname]
  rfl

theorem parsePublicodes_bool_body_syntax_error_witness :
    parsePublicodes benignCollab (.cons "r" (.rbool true) .nil) emptyPartialCtx
      = .error (.SynError "Rule r is incorrectly written. Please give it a proper value.") := by
  have h := (parsePublicodes_bool_body_syntax_error benignCollab emptyPartialCtx "r" true rfl).1
  simpa using h

/-- C9: a top-level rule whose body is `null` passes the malformed-body
check (`typeof null` is the string `object`), so `parsePublicodes` does
not raise the malformed-body `SyntaxError` for it; that error branch
fires exactly for bodies that are neither string, number, `null`, object
nor array — i.e. for booleans. -/
theorem bodyCheck_null_passes :
    (∀ name, bodyCheck name .rnull = .ok .rnull)
    ∧ (∀ name body,
        (∃ msg, bodyCheck name body = .error (.SynError msg)) ↔ ∃ b, body = .rbool b)
    ∧ parsePublicodes benignCollab (.cons "r" .rnull .nil) emptyPartialCtx = .ok [] := by
  refine ⟨fun _ => rfl, fun name body => ?_, rfl⟩
  constructor
  · rintro ⟨msg, h⟩
    cases body with
    | rbool b => exact ⟨b, rfl⟩
    | rstr s => simp [bodyCheck, normalizeBody, jsTypeof] at h
    | rnum n => simp [bodyCheck, normalizeBody, jsTypeof] at h
    | rnull => simp [bodyCheck, normalizeBody, jsTypeof] at h
    | arr xs => simp [bodyCheck, normalizeBody, jsTypeof] at h
    | obj fs => simp [bodyCheck, normalizeBody, jsTypeof] at h
  · rintro ⟨b, rfl⟩
    exact ⟨_, rfl⟩

/-- C3 counterexample: on a rule set whose references form a cycle
through the consequence of a `variations` node, the nullability pass does
throw — processing rule `B` memoizes `undefined` for `B` (its root
reference reads the not-yet-computed fact of `A`), and processing `A`
then evaluates `inferNodeUnit(line.consequence).isNullable` on that
`undefined` fact, a `TypeError`. -/
theorem inferRulesUnit_variations_cycle_throws :
    inferRulesUnit
      [("A", .rule "A" none none
          (.variations (.cons (.constant (.vbool true))
            (.reference "A" "B" (some "B") false none none) .nil))),
       ("B", .rule "B" none none (.reference "B" "A" (some "A") false none none))]
      ["B", "A"] = .error .TypeErrorUndefined := rfl

/-- C3 (amended): a `reference` node itself never makes the inference
throw — the memo lookup of an absent (or `undefined`) fact flows through
as the unknown value `none` — and a rule set whose references form a
cycle *not* placed under a `variations` consequence completes without
error, memoizing the unknown fact for both rules; only a dereference
site such as a `variations` consequence turns the unknown fact into a
thrown `TypeError`. -/
theorem inferNodeUnit_reference_absent_ok :
    (∀ (facts : Facts) (ctx name : String) (dn : Option String) (hack : Bool)
        (t a : Option String),
      inferNodeUnit facts (.reference ctx name dn hack t a)
        = .ok (dn.bind (lookupFact facts), facts))
    ∧ inferRulesUnit
        [("A", .rule "A" none none (.reference "A" "B" (some "B") false none none)),
         ("B", .rule "B" none none (.reference "B" "A" (some "A") false none none))]
        ["B", "A"] = .ok [("B", none), ("A", none)] := by
  refine ⟨?_, rfl⟩
  intro facts ctx name dn hack t a
  cases dn <;> rfl

theorem lookupFact_upsertFact_self (f : Facts) (k : String) (u : Option InferedUnit) :
    lookupFact (upsertFact f k u) k = u := by
  induction f with
  | nil => simp [upsertFact, lookupFact]
  | cons p t ih =>
    obtain ⟨k0, w⟩ := p
    by_cases h : k0 = k
    · subst h
      simp [upsertFact, lookupFact]
    · simpa [upsertFact, if_neg h, lookupFact] using ih

theorem lookupFact_upsertFact_other (f : Facts) (k key : String) (u : Option InferedUnit)
    (h : key ≠ k) : lookupFact (upsertFact f k u) key = lookupFact f key := by
  induction f with
  | nil => simp [upsertFact, lookupFact, Ne.symm h]
  | cons p t ih =>
    obtain ⟨k0, w⟩ := p
    by_cases h0 : k0 = k
    · subst h0
      simp [upsertFact, lookupFact, Ne.symm h]
    · by_cases h1 : k0 = key
      · subst h1
        simp [upsertFact, if_neg h0, lookupFact]
      · simpa [upsertFact, if_neg h0, lookupFact, h1] using ih

theorem inferNodeUnit_gate (facts : Facts) (root : ASTNode)
    (h : isGateKind root = true) :
    inferNodeUnit facts root = .ok (some ⟨true⟩, facts) := by
  cases root <;> simp_all [isGateKind, inferNodeUnit]

theorem inferNodeUnit_agg (facts : Facts) (root : ASTNode)
    (h : isAggregationKind root = true) :
    inferNodeUnit facts root = .ok (some ⟨false⟩, facts) := by
  cases root <;> simp_all [isAggregationKind, inferNodeUnit]

theorem gate_not_agg (root : ASTNode) (h : isAggregationKind root = true) :
    isGateKind root = false := by
  cases root <;> simp_all [isAggregationKind, isGateKind]

theorem inferNodeUnit_rule_gate_agg (facts : Facts) (n : String) (t a : Option String)
    (root : ASTNode) (h : (isGateKind root || isAggregationKind root) = true) :
    inferNodeUnit facts (.rule n t a root)
      = .ok (some ⟨isGateKind root⟩, upsertFact facts n (some ⟨isGateKind root⟩)) := by
  have h2 : isGateKind root = true ∨ isAggregationKind root = true := by
    simpa using h
  rcases h2 with hg | ha
  · rw [show inferNodeUnit facts (.rule n t a root)
        = (do
            let p ← inferNodeUnit facts root
            let facts2 := upsertFact p.2 n p.1
            Except.ok (lookupFact facts2 n, facts2)) from ?_]
    · rw [inferNodeUnit_gate facts root hg, hg]
      simp only [lookupFact_upsertFact_self]
      rfl
    · simp [inferNodeUnit]
  · rw [show inferNodeUnit facts (.rule n t a root)
        = (do
            let p ← inferNodeUnit facts root
            let facts2 := upsertFact p.2 n p.1
            Except.ok (lookupFact facts2 n, facts2)) from ?_]
    · rw [inferNodeUnit_agg facts root ha, gate_not_agg root ha]
      simp only [lookupFact_upsertFact_self]
      rfl
    · simp [inferNodeUnit]

theorem inferRulesGo_gate_agg (rules : List (String × ASTNode)) :
    ∀ (order : List String) (facts0 : Facts),
    (∀ name ∈ order, ∃ t a root,
        lookupRule rules name = some (.rule name t a root) ∧
        (isGateKind root || isAggregationKind root) = true) →
    ∃ facts, inferRulesGo rules order facts0 = .ok facts ∧
      (∀ key, key ∉ order → lookupFact facts key = lookupFact facts0 key) ∧
      (∀ name t a root, name ∈ order →
        lookupRule rules name = some (.rule name t a root) →
        (isGateKind root = true → lookupFact facts name = some ⟨true⟩) ∧
        (isAggregationKind root = true → lookupFact facts name = some ⟨false⟩)) := by
  intro order
  induction order with
  | nil =>
    intro facts0 _
    exact ⟨facts0, rfl, fun _ _ => rfl, fun name t a root h1 => absurd h1 (by simp)⟩
  | cons n rest ih =>
    intro facts0 h
    obtain ⟨t, a, root, hlook, hkind⟩ := h n (by simp)
    obtain ⟨facts, heq, hpres, hmem⟩ :=
      ih (upsertFact facts0 n (some ⟨isGateKind root⟩))
        (fun name hname => h name (by simp [hname]))
    refine ⟨facts, ?_, ?_, ?_⟩
    · simp only [inferRulesGo, hlook, inferNodeUnit_rule_gate_agg facts0 n t a root hkind]
      exact heq
    · intro key hkey
      have h1 : key ∉ rest := fun hk => hkey (by simp [hk])
      have h2 : key ≠ n := fun hk => hkey (by simp [hk])
      rw [hpres key h1, lookupFact_upsertFact_other _ _ _ _ h2]
    · intro name t2 a2 root2 hin hlook2
      by_cases hr : name ∈ rest
      · exact hmem name t2 a2 root2 hr hlook2
      · have hn : name = n := by
          rcases List.mem_cons.mp hin with h1 | h1
          · exact h1
          · exact absurd h1 hr
        subst hn
        have : ASTNode.rule name t a root = ASTNode.rule name t2 a2 root2 := by
          rw [hlook] at hlook2
          exact Option.some.inj hlook2
        obtain ⟨-, -, rfl⟩ : t = t2 ∧ a = a2 ∧ root = root2 := by
          cases this
          exact ⟨rfl, rfl, rfl⟩
        have hl : lookupFact facts name = some ⟨isGateKind root⟩ := by
          rw [hpres name hr, lookupFact_upsertFact_self]
        constructor
        · intro hg
          rw [hl, hg]
        · intro ha
          rw [hl, gate_not_agg root ha]

/-- C4: over any compiled rule set whose rule roots are applicability
gates or aggregation/arithmetic mechanisms, the nullability pass
completes and records in the fact table `isNullable = true` for every
rule whose root expression is a gate (`applicable si` /
`non applicable si`) and `isNullable = false` for every rule whose root
is a sum, product, rate-scale, duration, grid, progressive-rate, max or
min. -/
theorem inferRulesUnit_gate_agg (rules : List (String × ASTNode))
    (order : List String)
    (h : ∀ name ∈ order, ∃ t a root,
        lookupRule rules name = some (.rule name t a root) ∧
        (isGateKind root || isAggregationKind root) = true) :
    ∃ facts, inferRulesUnit rules order = .ok facts ∧
      ∀ name t a root, name ∈ order →
        lookupRule rules name = some (.rule name t a root) →
        (isGateKind root = true → lookupFact facts name = some ⟨true⟩) ∧
        (isAggregationKind root = true → lookupFact facts name = some ⟨false⟩) := by
  obtain ⟨facts, h1, -, h3⟩ := inferRulesGo_gate_agg rules order [] h
  exact ⟨facts, h1, h3⟩

theorem inferRulesUnit_gate_agg_witness :
    ∃ facts,
      inferRulesUnit
        [("g", .rule "g" none none (.applicableSi .nil)),
         ("s", .rule "s" none none (.somme .nil))] ["g", "s"] = .ok facts
      ∧ lookupFact facts "g" = some ⟨true⟩ ∧ lookupFact facts "s" = some ⟨false⟩ := by
  obtain ⟨facts, h1, h2⟩ :=
    inferRulesUnit_gate_agg
      [("g", .rule "g" none none (.applicableSi .nil)),
       ("s", .rule "s" none none (.somme .nil))] ["g", "s"]
      (by
        intro name hname
        rcases List.mem_cons.mp hname with rfl | hname2
        · exact ⟨none, none, .applicableSi .nil, rfl, rfl⟩
        · rcases List.mem_cons.mp hname2 with rfl | h0
          · exact ⟨none, none, .somme .nil, rfl, rfl⟩
          · exact absurd h0 (by simp))
  exact ⟨facts, h1,
    (h2 "g" none none (.applicableSi .nil) (by simp) rfl).1 rfl,
    (h2 "s" none none (.somme .nil) (by simp) rfl).2 rfl⟩

theorem lookupF_eq_none : ∀ (fs : RawFields) (key : String),
    (keysF fs).contains key = false → lookupF fs key = none
  | .nil, _, _ => rfl
  | .cons k v t, key, h => by
    simp only [keysF, List.contains_cons, Bool.or_eq_false_iff, beq_eq_false_iff_ne] at h
    simp only [lookupF, if_neg (Ne.symm h.1)]
    exact lookupF_eq_none t key h.2

theorem lookupF_replaceValF_self (k : String) (v : Raw) :
    ∀ (fs : RawFields), k ∈ keysF fs → lookupF (replaceValF k v fs) k = some v
  | .nil, h => by simp [keysF] at h
  | .cons k0 w t, h => by
    by_cases h0 : k0 = k
    · subst h0
      simp [replaceValF, lookupF]
    · simp only [replaceValF, if_neg h0, lookupF, if_neg h0]
      refine lookupF_replaceValF_self k v t ?_
      simp only [keysF, List.mem_cons] at h
      exact h.resolve_left (fun hk => h0 hk.symm)

theorem lookupF_replaceValF_other (k : String) (v : Raw) :
    ∀ (fs : RawFields) (key : String), key ≠ k →
    lookupF (replaceValF k v fs) key = lookupF fs key
  | .nil, _, _ => rfl
  | .cons k0 w t, key, h => by
    by_cases h0 : k0 = k
    · subst h0
      simp only [replaceValF, if_pos rfl, lookupF, if_neg (Ne.symm h)]
      exact lookupF_replaceValF_other _ v t key h
    · simp only [replaceValF, if_neg h0, lookupF]
      by_cases h1 : k0 = key
      · simp [h1]
      · simp only [if_neg h1]
        exact lookupF_replaceValF_other k v t key h

theorem lookupF_appendF : ∀ (fs gs : RawFields) (key : String),
    lookupF (appendF fs gs) key
      = match lookupF fs key with
        | some w => some w
        | none => lookupF gs key
  | .nil, _, _ => rfl
  | .cons k v t, gs, key => by
    by_cases h : k = key
    · simp [appendF, lookupF, h]
    · simp only [appendF, lookupF, if_neg h]
      exact lookupF_appendF t gs key

theorem lookupF_jsInsertF (fs : RawFields) (k : String) (v : Raw) (key : String) :
    lookupF (jsInsertF fs k v) key = if key = k then some v else lookupF fs key := by
  unfold jsInsertF
  by_cases hc : (keysF fs).contains k
  · rw [if_pos hc]
    by_cases h : key = k
    · subst h
      rw [if_pos rfl]
      exact lookupF_replaceValF_self _ _ _ (by simpa using hc)
    · rw [if_neg h]
      exact lookupF_replaceValF_other _ _ _ _ h
  · rw [if_neg hc]
    rw [lookupF_appendF]
    by_cases h : key = k
    · subst h
      rw [lookupF_eq_none fs key (by simpa using hc)]
      simp [lookupF]
    · rw [if_neg h]
      cases hl : lookupF fs key with
      | some w => rfl
      | none => simp [lookupF, if_neg (fun hk => h (hk.symm ▸ rfl) : ¬ k = key)]

theorem lookupF_jsMergeF_of_none :
    ∀ (b a : RawFields) (key : String), lookupF b key = none →
    lookupF (jsMergeF a b) key = lookupF a key
  | .nil, _, _, _ => rfl
  | .cons k v t, a, key, h => by
    simp only [lookupF] at h
    by_cases h0 : k = key
    · simp [h0] at h
    · rw [if_neg h0] at h
      simp only [jsMergeF]
      rw [lookupF_jsMergeF_of_none t (jsInsertF a k v) key h, lookupF_jsInsertF,
        if_neg (fun hk => h0 (hk.symm ▸ rfl) : ¬ key = k)]

theorem lookupF_jsMergeF_of_some :
    ∀ (b a : RawFields) (key : String) (w : Raw), nodupF b = true →
    lookupF b key = some w → lookupF (jsMergeF a b) key = some w
  | .nil, _, _, _, _, h => Option.noConfusion h
  | .cons k v t, a, key, w, hnd, h => by
    simp only [nodupF, Bool.and_eq_true, Bool.not_eq_true'] at hnd
    simp only [lookupF] at h
    by_cases h0 : k = key
    · subst h0
      rw [if_pos rfl] at h
      obtain rfl : v = w := Option.some.inj h
      simp only [jsMergeF]
      rw [lookupF_jsMergeF_of_none t (jsInsertF a k v) k
          (lookupF_eq_none t k hnd.1),
        lookupF_jsInsertF, if_pos rfl]
    · rw [if_neg h0] at h
      simp only [jsMergeF]
      exact lookupF_jsMergeF_of_some t (jsInsertF a k v) key w hnd.2 h

theorem decomposeSummands_of_allObjects (k : String) (fk : RawFields) :
    ∀ comps : RawSeq, allObjects comps = true →
    ∃ s, decomposeSummands k fk comps = some s
      ∧ seqLength s = seqLength comps
      ∧ (∀ i cf, seqGet comps i = some (.obj cf) →
          seqGet s i = some (summandOf k fk cf))
  | .nil, _ =>
    ⟨.nil, rfl, rfl, fun i cf h => by cases i <;> exact Option.noConfusion h⟩
  | .cons c tl, h => by
    cases c with
    | obj cf0 =>
      obtain ⟨s0, hs0, hlen, hidx⟩ :=
        decomposeSummands_of_allObjects k fk tl (by simpa [allObjects] using h)
      refine ⟨.cons (summandOf k fk cf0) s0, ?_, ?_, ?_⟩
      · simp [decomposeSummands, hs0]
      · simp [seqLength, hlen]
      · intro i cf hi
        cases i with
        | zero =>
          have h3 : cf0 = cf := Raw.obj.inj (Option.some.inj hi)
          subst h3
          rfl
        | succ n => exact hidx n cf hi
    | rstr s => simp [allObjects] at h
    | rnum n => simp [allObjects] at h
    | rbool b => simp [allObjects] at h
    | rnull => simp [allObjects] at h
    | arr xs => simp [allObjects] at h

/-- C6: for a components-mechanism value with a `composantes` list of
object components and shared factored keys, `decompose` builds one
`somme` raw node with exactly one summand per component — each summand
nesting, under the placeholder key `k` and inside its `valeur` entry, the
merge of the shared factored keys with the component's own non-attribute
keys — hands it to the `parse` collaborator, and tags the parsed result
with sourcemap metadata naming the `composantes` mechanism.  In the
merge, a key present in both the shared data and the component takes the
component's value, and a key present only in the shared data keeps its
shared value. -/
theorem decompose_components {α γ : Type} (parseFn : Raw → γ → MechNode α)
    (context : γ) (k : String) (v : RawFields) (comps : RawSeq)
    (h1 : lookupF v "composantes" = some (.arr comps))
    (h2 : allObjects comps = true) :
    (∃ s, decomposeSummands k (removeKeyF v "composantes") comps = some s
      ∧ decompose parseFn k v context
          = some ⟨(parseFn (.obj (.cons "somme" (.arr s) .nil)) context).val,
              some "composantes"⟩
      ∧ seqLength s = seqLength comps
      ∧ (∀ i cf, seqGet comps i = some (.obj cf) →
          seqGet s i = some (summandOf k (removeKeyF v "composantes") cf)))
    ∧ (∀ (factored other : RawFields) (key : String),
        (∀ w, nodupF other = true → lookupF other key = some w →
          lookupF (jsMergeF factored other) key = some w)
        ∧ (lookupF other key = none →
          lookupF (jsMergeF factored other) key = lookupF factored key)) := by
  constructor
  · obtain ⟨s, hs, hlen, hidx⟩ :=
      decomposeSummands_of_allObjects k (removeKeyF v "composantes") comps h2
    refine ⟨s, hs, ?_, hlen, hidx⟩
    simp [decompose, decomposeRaw, h1, hs]
  · intro factored other key
    exact ⟨fun w hnd h => lookupF_jsMergeF_of_some other factored key w hnd h,
      fun h => lookupF_jsMergeF_of_none other factored key h⟩

theorem decompose_components_witness :
    (∃ s,
      decomposeSummands "amount" (.cons "rate" (.rstr "0.1") .nil)
        (.cons (.obj (.cons "a" (.rnum 1) .nil))
          (.cons (.obj (.cons "b" (.rnum 2) .nil)) .nil)) = some s
      ∧ seqLength s = 2
      ∧ seqGet s 0 = some (summandOf "amount" (.cons "rate" (.rstr "0.1") .nil)
          (.cons "a" (.rnum 1) .nil)))
    ∧ lookupF (jsMergeF (.cons "rate" (.rstr "0.1") .nil)
        (.cons "rate" (.rnum 2) .nil)) "rate" = some (.rnum 2)
    ∧ lookupF (jsMergeF (.cons "rate" (.rstr "0.1") .nil)
        (.cons "b" (.rnum 2) .nil)) "rate" = some (.rstr "0.1") := by
  obtain ⟨⟨s, hs, -, hlen, hidx⟩, hmerge⟩ :=
    decompose_components (fun raw (_ : Unit) => (⟨raw, none⟩ : MechNode Raw)) ()
      "amount"
      (.cons "composantes"
        (.arr (.cons (.obj (.cons "a" (.rnum 1) .nil))
          (.cons (.obj (.cons "b" (.rnum 2) .nil)) .nil)))
        (.cons "rate" (.rstr "0.1") .nil))
      (.cons (.obj (.cons "a" (.rnum 1) .nil))
        (.cons (.obj (.cons "b" (.rnum 2) .nil)) .nil))
      rfl rfl
  refine ⟨⟨s, hs, hlen, hidx 0 (.cons "a" (.rnum 1) .nil) rfl⟩, ?_, ?_⟩
  · exact (hmerge (.cons "rate" (.rstr "0.1") .nil)
      (.cons "rate" (.rnum 2) .nil) "rate").1 (.rnum 2) rfl rfl
  · exact (hmerge (.cons "rate" (.rstr "0.1") .nil)
      (.cons "b" (.rnum 2) .nil) "rate").2 rfl

theorem appendF_nilRight : ∀ fs : RawFields, appendF fs .nil = fs
  | .nil => rfl
  | .cons k v t => by rw [appendF, appendF_nilRight t]

theorem appendF_assoc : ∀ a b c : RawFields,
    appendF (appendF a b) c = appendF a (appendF b c)
  | .nil, _, _ => rfl
  | .cons k v t, b, c => by rw [appendF, appendF, appendF, appendF_assoc t b c]

theorem keysF_replaceValF (k : String) (v : Raw) :
    ∀ fs : RawFields, keysF (replaceValF k v fs) = keysF fs
  | .nil => rfl
  | .cons k0 w t => by
    by_cases h : k0 = k <;>
      simp [replaceValF, h, keysF, keysF_replaceValF k v t]

theorem keysF_appendF : ∀ fs gs : RawFields,
    keysF (appendF fs gs) = keysF fs ++ keysF gs
  | .nil, _ => rfl
  | .cons k v t, gs => by rw [appendF, keysF, keysF, keysF_appendF t gs, List.cons_append]

theorem nodupF_replaceValF (k : String) (v : Raw) :
    ∀ fs : RawFields, nodupF (replaceValF k v fs) = nodupF fs
  | .nil => rfl
  | .cons k0 w t => by
    by_cases h : k0 = k <;>
      simp [replaceValF, h, nodupF, keysF_replaceValF, nodupF_replaceValF k v t]

theorem contains_append_eq (l1 l2 : List String) (a : String) :
    ((l1 ++ l2).contains a) = (l1.contains a || l2.contains a) := by
  induction l1 with
  | nil => rfl
  | cons x xs ih =>
    rw [List.cons_append, List.contains_cons, List.contains_cons, ih, Bool.or_assoc]

theorem nodupF_appendF_single (k : String) (v : Raw) :
    ∀ fs : RawFields, (keysF fs).contains k = false → nodupF fs = true →
    nodupF (appendF fs (.cons k v .nil)) = true
  | .nil, _, _ => rfl
  | .cons k0 w t, hc, hnd => by
    simp only [keysF, List.contains_cons, Bool.or_eq_false_iff,
      beq_eq_false_iff_ne] at hc
    simp only [nodupF, Bool.and_eq_true, Bool.not_eq_true'] at hnd
    simp only [appendF, nodupF, Bool.and_eq_true, Bool.not_eq_true',
      keysF_appendF, contains_append_eq, Bool.or_eq_false_iff, keysF,
      List.contains_cons, beq_eq_false_iff_ne]
    refine ⟨⟨hnd.1, Ne.symm hc.1, ?_⟩, nodupF_appendF_single k v t hc.2 hnd.2⟩
    rfl

theorem wfKeysFields_replaceValF (k : String) (v : Raw) (hv : wfKeys v = true) :
    ∀ fs : RawFields, wfKeysFields fs = true →
    wfKeysFields (replaceValF k v fs) = true
  | .nil, _ => rfl
  | .cons k0 w t, h => by
    simp only [wfKeysFields, Bool.and_eq_true] at h
    by_cases h0 : k0 = k <;>
      simp [replaceValF, h0, wfKeysFields, h.1, hv,
        wfKeysFields_replaceValF k v hv t h.2]

theorem wfKeysFields_appendF_single (k : String) (v : Raw) (hv : wfKeys v = true) :
    ∀ fs : RawFields, wfKeysFields fs = true →
    wfKeysFields (appendF fs (.cons k v .nil)) = true
  | .nil, _ => by simp [appendF, wfKeysFields, hv]
  | .cons k0 w t, h => by
    simp only [wfKeysFields, Bool.and_eq_true] at h
    simp [appendF, wfKeysFields, h.1, wfKeysFields_appendF_single k v hv t h.2]

theorem nodupF_jsInsertF (fs : RawFields) (k : String) (v : Raw)
    (h : nodupF fs = true) : nodupF (jsInsertF fs k v) = true := by
  unfold jsInsertF
  by_cases hc : (keysF fs).contains k
  · rw [if_pos hc, nodupF_replaceValF]
    exact h
  · rw [if_neg hc]
    exact nodupF_appendF_single k v fs (by simpa using hc) h

theorem wfKeysFields_jsInsertF (fs : RawFields) (k : String) (v : Raw)
    (h : wfKeysFields fs = true) (hv : wfKeys v = true) :
    wfKeysFields (jsInsertF fs k v) = true := by
  unfold jsInsertF
  by_cases hc : (keysF fs).contains k
  · rw [if_pos hc]
    exact wfKeysFields_replaceValF k v hv fs h
  · rw [if_neg hc]
    exact wfKeysFields_appendF_single k v hv fs h

/-! The desugarer always produces objects with pairwise distinct keys:
object outputs are rebuilt from the empty object through `jsInsertF`. -/

mutual
theorem wfKeys_transpileRef : ∀ x : Raw, wfKeys (transpileRef x) = true
  | .rstr _ => rfl
  | .rnum _ => rfl
  | .rbool _ => rfl
  | .rnull => rfl
  | .arr xs => by
    rw [transpileRef]
    simpa [wfKeys] using wfKeysSeq_transpileRefSeq xs
  | .obj fs => by
    rw [transpileRef]
    have h := wf_transpileRefFold fs RawFields.nil rfl rfl
    simp [wfKeys, h.1, h.2]

theorem wfKeysSeq_transpileRefSeq : ∀ xs : RawSeq,
    wfKeysSeq (transpileRefSeq xs) = true
  | .nil => rfl
  | .cons h t => by
    rw [transpileRefSeq]
    simp [wfKeysSeq, wfKeys_transpileRef h, wfKeysSeq_transpileRefSeq t]

theorem wf_transpileRefFold : ∀ (fs acc : RawFields),
    nodupF acc = true → wfKeysFields acc = true →
    nodupF (transpileRefFold acc fs) = true
      ∧ wfKeysFields (transpileRefFold acc fs) = true
  | .nil, acc, h1, h2 => by
    rw [transpileRefFold]
    exact ⟨h1, h2⟩
  | .cons k v t, acc, h1, h2 => by
    cases hm : findRefMatch k.toList with
    | none =>
      rw [transpileRefFold, hm]
      exact wf_transpileRefFold t _ (nodupF_jsInsertF _ _ _ h1)
        (wfKeysFields_jsInsertF _ _ _ h2 (wfKeys_transpileRef v))
    | some m =>
      obtain ⟨m0, g2⟩ := m
      rw [transpileRefFold, hm]
      refine wf_transpileRefFold t _ (nodupF_jsInsertF _ _ _ h1)
        (wfKeysFields_jsInsertF _ _ _ h2 ?_)
      simp [wfKeys, nodupF, keysF, wfKeysFields, wfKeys_transpileRef v]
end

/-! On a value with pairwise distinct keys in which no key matches the
`[ref]` pattern anywhere, the desugarer is the identity. -/

mutual
theorem transpileRef_id : ∀ x : Raw, wfKeys x = true → hasRefKey x = false →
    transpileRef x = x
  | .rstr _, _, _ => rfl
  | .rnum _, _, _ => rfl
  | .rbool _, _, _ => rfl
  | .rnull, _, _ => rfl
  | .arr xs, h1, h2 => by
    rw [transpileRef, transpileRefSeq_id xs (by simpa [wfKeys] using h1)
      (by simpa [hasRefKey] using h2)]
  | .obj fs, h1, h2 => by
    simp only [wfKeys, Bool.and_eq_true] at h1
    rw [transpileRef, transpileRefFold_id fs h1.1 h1.2
      (by simpa [hasRefKey] using h2) RawFields.nil (fun key _ => rfl)]
    rfl

theorem transpileRefSeq_id : ∀ xs : RawSeq, wfKeysSeq xs = true →
    hasRefKeySeq xs = false → transpileRefSeq xs = xs
  | .nil, _, _ => rfl
  | .cons h t, h1, h2 => by
    simp only [wfKeysSeq, Bool.and_eq_true] at h1
    simp only [hasRefKeySeq, Bool.or_eq_false_iff] at h2
    rw [transpileRefSeq, transpileRef_id h h1.1 h2.1,
      transpileRefSeq_id t h1.2 h2.2]

theorem transpileRefFold_id : ∀ fs : RawFields, nodupF fs = true →
    wfKeysFields fs = true → hasRefKeyFields fs = false →
    ∀ acc : RawFields, (∀ key, key ∈ keysF fs → (keysF acc).contains key = false) →
    transpileRefFold acc fs = appendF acc fs
  | .nil, _, _, _, acc, _ => by rw [transpileRefFold, appendF_nilRight]
  | .cons k v t, hnd, hwf, href, acc, hdisj => by
    simp only [nodupF, Bool.and_eq_true, Bool.not_eq_true'] at hnd
    simp only [hasRefKeyFields, Bool.or_eq_false_iff] at href
    simp only [wfKeysFields, Bool.and_eq_true] at hwf
    cases hm : findRefMatch k.toList with
    | some m =>
      rw [hm] at href
      simp at href
    | none =>
      rw [transpileRefFold, hm, transpileRef_id v hwf.1 href.1.2]
      have hkacc : (keysF acc).contains k = false := hdisj k (by simp [keysF])
      have hins : jsInsertF acc k v = appendF acc (.cons k v .nil) := by
        unfold jsInsertF
        rw [hkacc]
        rfl
      rw [hins, transpileRefFold_id t hnd.2 hwf.2 href.2
        (appendF acc (.cons k v .nil)) ?_]
      · rw [appendF_assoc]
        rfl
      · intro key hkey
        have hkk : (key == k) = false := by
          refine beq_eq_false_iff_ne.mpr (fun hk => ?_)
          subst hk
          revert hkey
          simpa using hnd.1
        rw [keysF_appendF, contains_append_eq, Bool.or_eq_false_iff]
        refine ⟨hdisj key (by simp [keysF, hkey]), ?_⟩
        simp [keysF, List.contains_cons, beq_eq_false_iff_ne.mp hkk]
end

/-- C2 counterexample: the desugarer is not idempotent.  For the key
`"[ref] x [ref]"`, the regex matches the *final* `"[ref]"` but
`String.replace` removes the *first* occurrence, leaving the key
`"x [ref]"`, which still matches the pattern; a second pass rewrites the
object again. -/
theorem transpileRef_not_idempotent :
    transpileRef (transpileRef (.obj (.cons "[ref] x [ref]" (.rnum 0) .nil)))
      ≠ transpileRef (.obj (.cons "[ref] x [ref]" (.rnum 0) .nil)) := by
  intro h
  have h2 := congrArg topKeys h
  rw [show topKeys
        (transpileRef (transpileRef (.obj (.cons "[ref] x [ref]" (.rnum 0) .nil))))
        = ["x"] from rfl,
    show topKeys (transpileRef (.obj (.cons "[ref] x [ref]" (.rnum 0) .nil)))
        = ["x [ref]"] from rfl] at h2
  exact absurd h2 (by decide)

/-- C2 (amended): the desugarer is idempotent on every input whose first
pass leaves no key matching the `[ref]` pattern at any depth — in
particular re-running it on shorthand-free output is a no-op; it fails to
be idempotent only when a rewritten key itself still matches the pattern
(which requires the matched bracket suffix to occur twice in one key). -/
theorem transpileRef_idempotent_of_no_ref (x : Raw)
    (h : hasRefKey (transpileRef x) = false) :
    transpileRef (transpileRef x) = transpileRef x :=
  transpileRef_id (transpileRef x) (wfKeys_transpileRef x) h

theorem transpileRef_idempotent_of_no_ref_witness :
    hasRefKey (transpileRef (.obj (.cons "a [ref]" (.rnum 1) .nil))) = false
    ∧ transpileRef (transpileRef (.obj (.cons "a [ref]" (.rnum 1) .nil)))
        = transpileRef (.obj (.cons "a [ref]" (.rnum 1) .nil)) :=
  ⟨rfl, transpileRef_idempotent_of_no_ref (.obj (.cons "a [ref]" (.rnum 1) .nil)) rfl⟩

/-! ### Correctness of the cycle-tolerant topological sort

The fuel argument: the names simultaneously marked in progress are
pairwise distinct and all drawn from the finite universe
`rulesNames ++ graphValues g`, so the nesting depth of
`topologicalSortHelper` never exceeds the number of distinct names in
that universe and the chosen fuel is never exhausted. -/

theorem nodup_subset_dedup_length (l u : List String) (hnd : l.Nodup)
    (hsub : ∀ x ∈ l, x ∈ u) : l.length ≤ u.dedup.length :=
  (hnd.subperm (fun x hx => List.mem_dedup.mpr (hsub x hx))).length_le

theorem lookupGraph_sub (g : List (String × List String)) (n d : String)
    (hd : d ∈ lookupGraph g n) : d ∈ graphValues g := by
  unfold lookupGraph at hd
  cases hf : g.find? (fun p => p.1 == n) with
  | none => rw [hf] at hd; simp at hd
  | some p =>
    rw [hf] at hd
    have hp : p ∈ g := List.mem_of_find?_eq_some hf
    unfold graphValues
    rw [List.mem_flatten]
    exact ⟨p.2, List.mem_map_of_mem Prod.snd hp, hd⟩

theorem beforeFirst_append_left (l l2 : List String) (x : String) (hx : x ∈ l) :
    beforeFirst (l ++ l2) x = beforeFirst l x := by
  induction l with
  | nil => simp at hx
  | cons a t ih =>
    by_cases h : a = x
    · subst h
      simp [beforeFirst, List.takeWhile_cons]
    · have hx2 : x ∈ t := by
        rcases List.mem_cons.mp hx with h1 | h1
        · exact absurd h1.symm h
        · exact h1
      have ht := ih hx2
      simp only [beforeFirst, ne_eq, decide_not] at ht ⊢
      simp [List.cons_append, List.takeWhile_cons, h, ht]

theorem beforeFirst_append_self (l : List String) (x : String) (hx : x ∉ l) :
    beforeFirst (l ++ [x]) x = l := by
  induction l with
  | nil => simp [beforeFirst]
  | cons a t ih =>
    have ha : a ≠ x := fun h => hx (by simp [h])
    have hx2 : x ∉ t := fun h => hx (by simp [h])
    have ht := ih hx2
    simp only [beforeFirst, ne_eq, decide_not] at ht ⊢
    simp [List.cons_append, List.takeWhile_cons, ha, ht]

theorem OrderInvT_mono (g : List (String × List String)) (r temp temp2 : List String)
    (h : OrderInvT g r temp) (hsub : ∀ t ∈ temp, t ∈ temp2) :
    OrderInvT g r temp2 := by
  intro x hx d hd
  rcases h x hx d hd with h1 | ⟨h2, h3 | h3⟩
  · exact Or.inl h1
  · exact Or.inr ⟨h2, Or.inl h3⟩
  · exact Or.inr ⟨h2, Or.inr (hsub _ h3)⟩

/-- Specification of the inner dependency loop, assuming the
specification of the recursive visit at fuel `f` (parameter `ihvisit`). -/
theorem topologicalSortDeps_spec (g : List (String × List String)) (U : List String)
    (f : Nat)
    (ihvisit : ∀ (name : String) (temp result : List String),
      name ∈ U → name ∉ temp → name ∉ result →
      temp.Nodup → (∀ t ∈ temp, t ∈ U) → (∀ t ∈ temp, t ∉ result) →
      (∀ t ∈ temp, Reach g t name) →
      result.Nodup → OrderInvT g result temp →
      U.dedup.length < f + temp.length →
      ∃ r, topologicalSortHelper g f name temp result = some r ∧
        result <+: r ∧ r.Nodup ∧ name ∈ r ∧
        (∀ x ∈ r, x ∉ result → x ∉ temp ∧ x ∈ U) ∧
        OrderInvT g r temp) :
    ∀ (ds : List String) (temp result : List String),
      (∀ d ∈ ds, d ∈ U) →
      (∀ d ∈ ds, ∀ t ∈ temp, Reach g t d) →
      temp.Nodup → (∀ t ∈ temp, t ∈ U) → (∀ t ∈ temp, t ∉ result) →
      result.Nodup → OrderInvT g result temp →
      U.dedup.length < f + temp.length →
      ∃ r, topologicalSortDeps (topologicalSortHelper g f) ds temp result = some r ∧
        result <+: r ∧ r.Nodup ∧
        (∀ x ∈ r, x ∉ result → x ∉ temp ∧ x ∈ U) ∧
        OrderInvT g r temp ∧
        (∀ d ∈ ds, d ∈ temp ∨ d ∈ r) := by
  intro ds
  induction ds with
  | nil =>
    intro temp result _ _ _ _ _ hrnd hinv _
    exact ⟨result, rfl, List.prefix_refl _, hrnd,
      fun x hx hnx => absurd hx hnx, hinv, by simp⟩
  | cons d ds ih =>
    intro temp result hdU hreach htnd htU htr hrnd hinv hfuel
    by_cases hdt : d ∈ temp
    · rw [topologicalSortDeps, if_pos hdt]
      obtain ⟨r, h1, hpre, hnd, hnew, hinv2, hds⟩ :=
        ih temp result (fun x hx => hdU x (by simp [hx]))
          (fun x hx => hreach x (by simp [hx])) htnd htU htr hrnd hinv hfuel
      refine ⟨r, h1, hpre, hnd, hnew, hinv2, ?_⟩
      intro d0 hd0
      rcases List.mem_cons.mp hd0 with rfl | hd0
      · exact Or.inl hdt
      · exact hds d0 hd0
    · by_cases hdr : d ∈ result
      · rw [topologicalSortDeps, if_neg hdt, if_pos hdr]
        obtain ⟨r, h1, hpre, hnd, hnew, hinv2, hds⟩ :=
          ih temp result (fun x hx => hdU x (by simp [hx]))
            (fun x hx => hreach x (by simp [hx])) htnd htU htr hrnd hinv hfuel
        refine ⟨r, h1, hpre, hnd, hnew, hinv2, ?_⟩
        intro d0 hd0
        rcases List.mem_cons.mp hd0 with rfl | hd0
        · exact Or.inr (hpre.subset hdr)
        · exact hds d0 hd0
      · obtain ⟨r1, hv, hpre1, hnd1, hdmem, hnew1, hinv1⟩ :=
          ihvisit d temp result (hdU d (by simp)) hdt hdr htnd htU htr
            (fun t ht => hreach d (by simp) t ht) hrnd hinv hfuel
        rw [topologicalSortDeps, if_neg hdt, if_neg hdr, hv]
        obtain ⟨r, h1, hpre, hnd, hnew, hinv2, hds⟩ :=
          ih temp r1 (fun x hx => hdU x (by simp [hx]))
            (fun x hx => hreach x (by simp [hx])) htnd htU
            (fun t ht hmem => by
              by_cases hres : t ∈ result
              · exact htr t ht hres
              · exact (hnew1 t hmem hres).1 ht)
            hnd1 hinv1 hfuel
        refine ⟨r, h1, hpre1.trans hpre, hnd, ?_, hinv2, ?_⟩
        · intro x hx hxres
          by_cases hx1 : x ∈ r1
          · exact hnew1 x hx1 hxres
          · exact hnew x hx hx1
        · intro d0 hd0
          rcases List.mem_cons.mp hd0 with rfl | hd0
          · exact Or.inr (hpre.subset hdmem)
          · exact hds d0 hd0

/-- Specification of `topologicalSortHelper`: with enough fuel, the visit
of a fresh name always succeeds, extends the result with fresh names
ending in the visited one, preserves distinctness, and maintains the
ordering invariant. -/
theorem topologicalSortHelper_spec (g : List (String × List String)) (U : List String)
    (hcl : ∀ d ∈ graphValues g, d ∈ U) :
    ∀ (f : Nat) (name : String) (temp result : List String),
      name ∈ U → name ∉ temp → name ∉ result →
      temp.Nodup → (∀ t ∈ temp, t ∈ U) → (∀ t ∈ temp, t ∉ result) →
      (∀ t ∈ temp, Reach g t name) →
      result.Nodup → OrderInvT g result temp →
      U.dedup.length < f + temp.length →
      ∃ r, topologicalSortHelper g f name temp result = some r ∧
        result <+: r ∧ r.Nodup ∧ name ∈ r ∧
        (∀ x ∈ r, x ∉ result → x ∉ temp ∧ x ∈ U) ∧
        OrderInvT g r temp := by
  intro f
  induction f with
  | zero =>
    intro name temp result hU hnt _ htnd htU _ _ _ _ hfuel
    exfalso
    have hnodup0 : (name :: temp).Nodup := List.nodup_cons.mpr ⟨hnt, htnd⟩
    have hle := nodup_subset_dedup_length (name :: temp) U hnodup0
      (by
        intro x hx
        rcases List.mem_cons.mp hx with rfl | hx
        · exact hU
        · exact htU x hx)
    simp only [List.length_cons] at hle
    omega
  | succ f ihf =>
    intro name temp result hU hnt hnr htnd htU htr hreach hrnd hinv hfuel
    obtain ⟨res, hd1, hpre, hnd, hnew, hinv1, hcov⟩ :=
      topologicalSortDeps_spec g U f ihf (lookupGraph g name) (name :: temp) result
        (fun d hd => hcl d (lookupGraph_sub g name d hd))
        (fun d hd t ht => by
          rcases List.mem_cons.mp ht with rfl | ht2
          · exact Reach.tail (Reach.refl t) hd
          · exact Reach.tail (hreach t ht2) hd)
        (List.nodup_cons.mpr ⟨hnt, htnd⟩)
        (fun t ht => by
          rcases List.mem_cons.mp ht with rfl | ht2
          · exact hU
          · exact htU t ht2)
        (fun t ht => by
          rcases List.mem_cons.mp ht with rfl | ht2
          · exact hnr
          · exact htr t ht2)
        hrnd
        (OrderInvT_mono g result temp (name :: temp) hinv (fun t ht => by simp [ht]))
        (by simp only [List.length_cons]; omega)
    rw [topologicalSortHelper, hd1]
    have hname_res : name ∉ res := fun hmem => by
      by_cases h : name ∈ result
      · exact hnr h
      · exact (hnew name hmem h).1 (by simp)
    refine ⟨res ++ [name], rfl, ?_, ?_, by simp, ?_, ?_⟩
    · exact hpre.trans (List.prefix_append res [name])
    · exact List.nodup_append.mpr ⟨hnd, List.nodup_singleton name,
        fun a ha hb => by
          rw [List.mem_singleton] at hb
          subst hb
          exact hname_res ha⟩
    · intro x hx hxres
      rcases List.mem_append.mp hx with hx1 | hx1
      · exact ⟨fun ht => (hnew x hx1 hxres).1 (by simp [ht]), (hnew x hx1 hxres).2⟩
      · rw [List.mem_singleton] at hx1
        subst hx1
        exact ⟨hnt, hU⟩
    · intro x hx d hd
      rcases List.mem_append.mp hx with hx1 | hx1
      · rcases hinv1 x hx1 d hd with hb | ⟨hrch, hmem⟩
        · rw [beforeFirst_append_left res [name] x hx1]
          exact Or.inl hb
        · rcases hmem with hm1 | hm1
          · exact Or.inr ⟨hrch, Or.inl (List.mem_append_left _ hm1)⟩
          · rcases List.mem_cons.mp hm1 with rfl | hm2
            · exact Or.inr ⟨hrch, Or.inl (List.mem_append_right _ (by simp))⟩
            · exact Or.inr ⟨hrch, Or.inr hm2⟩
      · rw [List.mem_singleton] at hx1
        subst hx1
        rcases hcov d hd with hm1 | hm1
        · rcases List.mem_cons.mp hm1 with rfl | hm2
          · exact Or.inr ⟨Reach.refl d, Or.inl (List.mem_append_right _ (by simp))⟩
          · exact Or.inr ⟨hreach d hm2, Or.inr hm2⟩
        · rw [beforeFirst_append_self res x hname_res]
          exact Or.inl hm1

/-- Specification of the outer loop over `rulesNames`. -/
theorem topologicalSortGo_spec (g : List (String × List String)) (U : List String)
    (hcl : ∀ d ∈ graphValues g, d ∈ U) (fuel : Nat)
    (hfuel : U.dedup.length < fuel) :
    ∀ (ns result : List String),
      (∀ n ∈ ns, n ∈ U) → result.Nodup → OrderInvT g result [] →
      ∃ r, topologicalSortGo g fuel ns result = some r ∧ result <+: r ∧ r.Nodup ∧
        (∀ n ∈ ns, n ∈ r) ∧ OrderInvT g r [] := by
  intro ns
  induction ns with
  | nil =>
    intro result _ hrnd hinv
    exact ⟨result, rfl, List.prefix_refl _, hrnd, by simp, hinv⟩
  | cons n ns ih =>
    intro result hns hrnd hinv
    by_cases hmem : n ∈ result
    · rw [topologicalSortGo, if_pos hmem]
      obtain ⟨r, h1, hpre, hnd, hml, hinv2⟩ :=
        ih result (fun x hx => hns x (by simp [hx])) hrnd hinv
      refine ⟨r, h1, hpre, hnd, ?_, hinv2⟩
      intro m hm
      rcases List.mem_cons.mp hm with rfl | hm2
      · exact hpre.subset hmem
      · exact hml m hm2
    · obtain ⟨r1, hv, hpre1, hnd1, hn1, -, hinv1⟩ :=
        topologicalSortHelper_spec g U hcl fuel n [] result (hns n (by simp))
          (by simp) hmem List.nodup_nil (by simp) (by simp) (by simp) hrnd hinv
          (by simpa using hfuel)
      rw [topologicalSortGo, if_neg hmem, hv]
      obtain ⟨r, h1, hpre, hnd, hml, hinv2⟩ :=
        ih r1 (fun x hx => hns x (by simp [hx])) hnd1 hinv1
      refine ⟨r, h1, hpre1.trans hpre, hnd, ?_, hinv2⟩
      intro m hm
      rcases List.mem_cons.mp hm with rfl | hm2
      · exact hpre.subset hn1
      · exact hml m hm2

/-- C1: for every dependency graph — cyclic ones included —
`topologicalSort` returns a result (the embedded fuel, which models the
unbounded JS recursion, is never exhausted, and no error is raised), the
result lists every input rule name exactly once, and a dependency `d` of
an appended name `x` either appears before `x` or is a back-edge (a
dependency from which `x` is reachable), in which case it still appears
in the result.  In particular the acyclic chain A→B→C yields C, B, A in
that order, and the two-cycle A→B→A yields both names exactly once. -/
theorem topologicalSort_spec :
    (∀ (rulesNames : List String) (g : List (String × List String)),
      ∃ r, topologicalSort rulesNames g = some r ∧ r.Nodup ∧
        (∀ n ∈ rulesNames, r.count n = 1) ∧
        (∀ x ∈ r, ∀ d ∈ lookupGraph g x,
          d ∈ beforeFirst r x ∨ (Reach g d x ∧ d ∈ r)))
    ∧ topologicalSort ["A", "B", "C"] [("A", ["B"]), ("B", ["C"])]
        = some ["C", "B", "A"]
    ∧ topologicalSort ["A", "B"] [("A", ["B"]), ("B", ["A"])] = some ["B", "A"] := by
  refine ⟨?_, rfl, rfl⟩
  intro rulesNames g
  have hfuel : (rulesNames ++ graphValues g).dedup.length
      < (rulesNames ++ graphValues g).length + 1 := by
    have := (List.dedup_sublist (rulesNames ++ graphValues g)).length_le
    omega
  obtain ⟨r, h1, -, hnd, hml, hinv⟩ :=
    topologicalSortGo_spec g (rulesNames ++ graphValues g)
      (fun d hd => List.mem_append_right _ hd)
      ((rulesNames ++ graphValues g).length + 1) hfuel rulesNames []
      (fun n hn => List.mem_append_left _ hn) List.nodup_nil
      (fun x hx => absurd hx (List.not_mem_nil x))
  refine ⟨r, h1, hnd, fun n hn => List.count_eq_one_of_mem hnd (hml n hn),
    fun x hx d hd => ?_⟩
  rcases hinv x hx d hd with hb | ⟨hrch, hmem | hmem⟩
  · exact Or.inl hb
  · exact Or.inr ⟨hrch, hmem⟩
  · exact absurd hmem (List.not_mem_nil d)

theorem topologicalSort_spec_witness :
    ∃ r, topologicalSort ["A", "B"] [("A", ["B"]), ("B", ["A"])] = some r
      ∧ r.count "A" = 1 ∧ r.count "B" = 1 := by
  obtain ⟨r, h1, -, hc, -⟩ := topologicalSort_spec.1 ["A", "B"] [("A", ["B"]), ("B", ["A"])]
  exact ⟨r, h1, hc "A" (by simp), hc "B" (by simp)⟩

end Publicodes
